import Mathlib

/-!
Shallow embedding of the scylladb-migrate reconciliation engine
(src/src/main.rs and src/src/db.rs).

Modelling conventions:
- Script text is `List Char` (Rust `String` contents); Rust's
  `str::replace("\n", " ")` with a one-character pattern is a character map,
  and `str::split(";")` is a split on the single character ';'.
- The filesystem is a partial map `String → Option (List Char)` from paths to
  file contents (`read_to_string` succeeds exactly on mapped paths).
- The target store's response to executing one statement is an oracle
  `exec : List Char → Bool` (true = statement succeeded); `session.query_unpaged`
  on a statement either succeeds or yields the statement error.
- The ledger table `scylladb_migrate_ks.migrations` has primary key
  `(type, id)` with the constant partition key, so a row is keyed by its `id`;
  the table is a `List LedgerRecord` and the Cassandra INSERT is an upsert
  (replace the row with the same id).  `SELECT ... ORDER BY id` sorts rows by
  id before the client-side filter.
- Ledger reads and writes themselves are assumed to succeed (their transport
  errors are not modelled); file-read failures and statement failures are.
-/

namespace ScyllaMigrate

/-- Error kinds that the model distinguishes: a file-read failure
(`anyhow` wrapping `std::io::Error`) and a statement-execution failure. -/
inductive MError where
  | ioError
  | statementError
deriving DecidableEq, Repr

/-- Constant `PARTITION_KEY` from main.rs line 13 (db.rs imports the same one). -/
def PARTITION_KEY : String := "migrate"

/-- One row of `scylladb_migrate_ks.migrations` (columns id, status, run_at;
the `type` column always holds `PARTITION_KEY` and is left implicit). -/
structure LedgerRecord where
  id : String
  status : String
  run_at : Int
deriving DecidableEq, Repr

/-- The ledger table: its rows, in arbitrary storage order (reads sort). -/
abbrev Ledger := List LedgerRecord

/-- Cassandra INSERT semantics for primary key `(type, id)`: replace any
existing row with this id by the new row. -/
def Ledger.upsertRow (l : Ledger) (id status : String) (now : Int) : Ledger :=
  l.filter (fun r => !(r.id == id)) ++ [⟨id, status, now⟩]

/-- DELETE ... WHERE type = ? AND id = ? : drop the row with this id
(db.rs `delete`, lines 95-108). -/
def Ledger.deleteRow (l : Ledger) (id : String) : Ledger :=
  l.filter (fun r => !(r.id == id))

/-- Rows as returned by `SELECT id, status FROM ... WHERE type = ? ORDER BY id`:
the table's rows sorted ascending by id. -/
def Ledger.rowsById (l : Ledger) : Ledger :=
  l.mergeSort (fun a b => decide (a.id ≤ b.id))

/-- The client-side `filter_map` of main.rs `db_migrations` / db.rs `list`:
keep `r.id` exactly when `r.status == "success"`, in row order. -/
def successIds (rows : Ledger) : List String :=
  (rows.filter (fun r => r.status == "success")).map (fun r => r.id)

/-- Result of the applied-migrations query: success-status ids, ascending. -/
def ledgerList (l : Ledger) : List String :=
  successIds (Ledger.rowsById l)

/-- Rust `query.replace("\n", " ")` (main.rs line 104): every newline becomes
a single space; a one-character pattern and replacement is a character map. -/
def replaceNewlines (s : List Char) : List Char :=
  s.map (fun c => if c = '\n' then ' ' else c)

/-- Rust `str::split(";")` for the one-character separator: `n` separators
yield `n + 1` fragments; the empty string yields one empty fragment. -/
def splitSemi : List Char → List (List Char)
  | [] => [[]]
  | c :: cs =>
    if c = ';' then [] :: splitSemi cs
    else
      match splitSemi cs with
      | [] => [[c]]
      | f :: fs => (c :: f) :: fs

/-- Statement list of main.rs `apply_migration` lines 104-112: replace
newlines by spaces, split on ';', drop exactly-empty fragments. -/
def splitStatements (script : List Char) : List (List Char) :=
  (splitSemi (replaceNewlines script)).filter (fun q => !q.isEmpty)

/-- The sequential statement loop of `apply_migration` lines 116-118: run each
statement until the first failure; returns the statements actually issued to
the store (in order, the failing one included) and the overall outcome. -/
def runQueries (exec : List Char → Bool) : List (List Char) → List (List Char) × Except MError Unit
  | [] => ([], Except.ok ())
  | q :: qs =>
    if exec q then
      let r := runQueries exec qs
      (q :: r.1, r.2)
    else
      ([q], Except.error MError.statementError)

/-- Path `{dir_path}/{migration}/up.cql` built in main.rs line 89. -/
def upPath (dir_path migration : String) : String :=
  dir_path ++ "/" ++ migration ++ "/up.cql"

/-- Path `{dir_path}/{migration}/down.cql`, the down counterpart of `upPath`
(the layout generated by main.rs `generate`, line 56). -/
def downPath (dir_path migration : String) : String :=
  dir_path ++ "/" ++ migration ++ "/down.cql"

/-- main.rs `file_contents` (lines 196-198): `read_to_string`, an io error
when the path is missing or unreadable. -/
def file_contents (fs : String → Option (List Char)) (path : String) :
    Except MError (List Char) :=
  match fs path with
  | some s => Except.ok s
  | none => Except.error MError.ioError

/-- main.rs `apply_migration` (lines 102-122): read the script, split it into
statements, run them sequentially; first component is the list of statements
actually issued to the store. -/
def apply_migration (fs : String → Option (List Char)) (exec : List Char → Bool)
    (migration_path : String) : List (List Char) × Except MError Unit :=
  match file_contents fs migration_path with
  | Except.error e => ([], Except.error e)
  | Except.ok query => runQueries exec (splitStatements query)

/-- The INSERT statement text of main.rs `save_migration` (lines 134-137),
byte for byte. -/
def save_migration_query : String :=
  "\n                INSERT INTO scylladb_migrate_ks.migrations (type, id, status, run_at)\n                VALUES (?, ?, ?, ?)\n                "

/-- The SELECT statement text of main.rs `db_migrations` (lines 149-154),
byte for byte. -/
def db_migrations_query : String :=
  "\n            SELECT id, status\n            FROM scylladb_migrate_ks.migrations\n            WHERE type = ?\n            ORDER BY id\n            "

/-- main.rs `save_migration` (lines 124-143): status string from the success
flag, then the INSERT; returns the issued query with its bound values and the
ledger after the write. -/
def save_migration (l : Ledger) (migration : String) (success : Bool) (now : Int) :
    (String × (String × String × String × Int)) × Ledger :=
  let status := if success then "success" else "failed"
  ((save_migration_query, (PARTITION_KEY, migration, status, now)),
    Ledger.upsertRow l migration status now)

/-- main.rs `db_migrations` (lines 145-170): the SELECT with its bound value,
and the ids whose row has status "success", in the query's id order. -/
def db_migrations (l : Ledger) : (String × String) × List String :=
  ((db_migrations_query, PARTITION_KEY), ledgerList l)

/-- The INSERT statement text of db.rs `upsert` (lines 57-60), byte for byte. -/
def DB.upsert_query : String :=
  "\n                INSERT INTO scylladb_migrate_ks.migrations (type, id, status, run_at)\n                VALUES (?, ?, ?, ?)\n                "

/-- The SELECT statement text of db.rs `list` (lines 72-77), byte for byte. -/
def DB.list_query : String :=
  "\n            SELECT id, status\n            FROM scylladb_migrate_ks.migrations\n            WHERE type = ?\n            ORDER BY id\n            "

/-- db.rs `upsert` (lines 47-66): status string from the success flag, then
the INSERT; same output shape as `save_migration`. -/
def DB.upsert (l : Ledger) (migration : String) (success : Bool) (now : Int) :
    (String × (String × String × String × Int)) × Ledger :=
  let status := if success then "success" else "failed"
  ((DB.upsert_query, (PARTITION_KEY, migration, status, now)),
    Ledger.upsertRow l migration status now)

/-- db.rs `list` (lines 68-93): the SELECT with its bound value, and the ids
whose row has status "success", in the query's id order. -/
def DB.list (l : Ledger) : (String × String) × List String :=
  ((DB.list_query, PARTITION_KEY), ledgerList l)

/-- main.rs `subdirectories` (lines 172-194): the catalog's immediate
subdirectory names (given here as the directory-enumeration result, in
enumeration order), sorted ascending. -/
def subdirectories (entries : List String) : List String :=
  entries.mergeSort (fun a b => decide (a ≤ b))

/-- The filter of main.rs `up` lines 76-82: local migrations whose id is not
contained in the applied list, keeping the local (sorted) order. -/
def migrations_to_apply (local_migrations db_migs : List String) : List String :=
  local_migrations.filter (fun entry => !(db_migs.contains entry))

/-- Observable outcome of one up pass: the migrations passed to
`apply_migration` in order, the statements issued to the store in order, the
final ledger, and the returned result. -/
structure UpResult where
  attempted : List String
  executed : List (List Char)
  ledger : Ledger
  result : Except MError Unit
deriving Repr

/-- The per-migration loop of main.rs `up` (lines 88-97): apply the migration,
record the outcome with the shared timestamp `now`, and stop after recording
if the application failed. -/
def upLoop (fs : String → Option (List Char)) (exec : List Char → Bool)
    (dir_path : String) (now : Int) : List String → Ledger → UpResult
  | [], l => ⟨[], [], l, Except.ok ()⟩
  | m :: ms, l =>
    let resp := apply_migration fs exec (upPath dir_path m)
    let l' := (save_migration l m resp.2.isOk now).2
    match resp.2 with
    | Except.error e => ⟨[m], resp.1, l', Except.error e⟩
    | Except.ok _ =>
      let r := upLoop fs exec dir_path now ms l'
      ⟨m :: r.attempted, resp.1 ++ r.executed, r.ledger, r.result⟩

/-- main.rs `up` (lines 70-100): list local migrations, read the applied ids
from the ledger, filter, capture `now` once, then run the loop. -/
def up (fs : String → Option (List Char)) (exec : List Char → Bool)
    (dir_path : String) (entries : List String) (now : Int) (l : Ledger) : UpResult :=
  let local_migrations := subdirectories entries
  let db_migs := (db_migrations l).2
  let pending := migrations_to_apply local_migrations db_migs
  upLoop fs exec dir_path now pending l

/-- Revert selection mode, from spec section 4.2. -/
inductive RevertMode where
  | latest
  | all
deriving DecidableEq, Repr

/-- Observable outcome of a revert pass: migrations whose down script was
attempted in order, final ledger, result. -/
structure RevertResult where
  attempted : List String
  ledger : Ledger
  result : Except MError Unit
deriving Repr

/-- Modelled from the spec: the per-migration revert step of section 4.2 —
the repository's "down" command is not implemented in src (main.rs routes
"down" to `help()`), so the loop body is taken from the spec's words: load
the down script, execute it via the statement executor, and only on success
delete the ledger record (the delete itself is db.rs `delete`); on failure
abort with the record left intact. -/
def revertLoop (fs : String → Option (List Char)) (exec : List Char → Bool)
    (dir_path : String) : List String → Ledger → RevertResult
  | [], l => ⟨[], l, Except.ok ()⟩
  | m :: ms, l =>
    let resp := apply_migration fs exec (downPath dir_path m)
    match resp.2 with
    | Except.error e => ⟨[m], l, Except.error e⟩
    | Except.ok _ =>
      let l' := Ledger.deleteRow l m
      let r := revertLoop fs exec dir_path ms l'
      ⟨m :: r.attempted, r.ledger, r.result⟩

/-- Modelled from the spec: `Revert` of section 4.2 — missing from src as
above.  Latest mode selects the single greatest applied id (none when the
applied set is empty), All mode selects every applied id; the selection is
processed in descending id order. -/
def revert (fs : String → Option (List Char)) (exec : List Char → Bool)
    (dir_path : String) (mode : RevertMode) (l : Ledger) : RevertResult :=
  let applied := ledgerList l
  let selected :=
    match mode with
    | RevertMode.latest =>
      match applied.getLast? with
      | none => []
      | some m => [m]
    | RevertMode.all => applied.reverse
  revertLoop fs exec dir_path selected l

/-! ### Ledger lemmas -/

/-- Membership in the applied-ids listing: exactly the ids of rows whose
status is "success". -/
lemma mem_ledgerList {l : Ledger} {m : String} :
    m ∈ ledgerList l ↔ ∃ r, r ∈ l ∧ r.id = m ∧ r.status = "success" := by
  simp only [ledgerList, successIds, Ledger.rowsById, List.mem_map,
    List.mem_filter, List.mem_mergeSort, beq_iff_eq]
  constructor
  · rintro ⟨r, ⟨hr, hs⟩, hid⟩
    exact ⟨r, hr, hid, hs⟩
  · rintro ⟨r, hr, hid, hs⟩
    exact ⟨r, ⟨hr, hs⟩, hid⟩

/-- The applied-ids listing is sorted ascending (the SELECT orders by id). -/
lemma ledgerList_sorted (l : Ledger) : (ledgerList l).Pairwise (· ≤ ·) := by
  have htrans : ∀ a b c : LedgerRecord,
      decide (a.id ≤ b.id) = true → decide (b.id ≤ c.id) = true →
        decide (a.id ≤ c.id) = true := by
    intro a b c hab hbc
    simp only [decide_eq_true_eq] at *
    exact le_trans hab hbc
  have htotal : ∀ a b : LedgerRecord,
      (decide (a.id ≤ b.id) || decide (b.id ≤ a.id)) = true := by
    intro a b
    simpa using le_total a.id b.id
  have h1 := List.sorted_mergeSort htrans htotal l
  have h2 : (Ledger.rowsById l).Pairwise (fun a b : LedgerRecord => a.id ≤ b.id) :=
    h1.imp (by simp only [decide_eq_true_eq]; exact fun h => h)
  have h3 := h2.filter (fun r => r.status == "success")
  exact List.pairwise_map.mpr h3

/-- When the table has at most one row per id, the listing has no duplicate. -/
lemma ledgerList_nodup {l : Ledger} (h : (l.map (fun r => r.id)).Nodup) :
    (ledgerList l).Nodup := by
  have hperm : (l.map (fun r => r.id)).Perm ((Ledger.rowsById l).map (fun r => r.id)) :=
    ((List.mergeSort_perm l _).map _).symm
  have hrows : ((Ledger.rowsById l).map (fun r => r.id)).Nodup := hperm.nodup h
  have hsub : (ledgerList l).Sublist ((Ledger.rowsById l).map (fun r => r.id)) :=
    (List.filter_sublist (Ledger.rowsById l)).map _
  exact hsub.nodup hrows

/-- Extracting success ids commutes with dropping the rows of one id. -/
lemma successIds_deleteRow (l : Ledger) (id : String) :
    successIds (Ledger.deleteRow l id) = (successIds l).filter (fun x => !(x == id)) := by
  simp only [Ledger.deleteRow, successIds]
  rw [List.filter_comm, List.map_filter]
  rfl

/-- The listing after a DELETE of one id: the old listing with that id
removed. -/
lemma ledgerList_deleteRow (l : Ledger) (id : String) :
    ledgerList (Ledger.deleteRow l id) = (ledgerList l).filter (fun x => !(x == id)) := by
  have p1 : (ledgerList (Ledger.deleteRow l id)).Perm
      (successIds (Ledger.deleteRow l id)) :=
    ((List.mergeSort_perm _ _).filter _).map _
  have p2 : ((ledgerList l).filter (fun x => !(x == id))).Perm
      ((successIds l).filter (fun x => !(x == id))) :=
    (((List.mergeSort_perm _ _).filter _).map _).filter _
  have p3 : (ledgerList (Ledger.deleteRow l id)).Perm
      ((successIds l).filter (fun x => !(x == id))) := by
    rw [← successIds_deleteRow]
    exact p1
  have hs1 : ((ledgerList (Ledger.deleteRow l id))).Sorted (· ≤ ·) :=
    ledgerList_sorted _
  have hs2 : (((ledgerList l).filter (fun x => !(x == id)))).Sorted (· ≤ ·) :=
    (ledgerList_sorted l).filter _
  exact List.eq_of_perm_of_sorted (p3.trans p2.symm) hs1 hs2

/-- Membership in the listing after an upsert: the new id appears exactly when
the new status is "success"; every other id is listed as before. -/
lemma mem_ledgerList_upsertRow {l : Ledger} {id st : String} {t : Int} {m : String} :
    m ∈ ledgerList (Ledger.upsertRow l id st t) ↔
      (m = id ∧ st = "success") ∨ (m ≠ id ∧ m ∈ ledgerList l) := by
  simp only [mem_ledgerList, Ledger.upsertRow, List.mem_append, List.mem_filter,
    List.mem_singleton, Bool.not_eq_true', beq_eq_false_iff_ne]
  constructor
  · rintro ⟨r, hr | hr, hid, hs⟩
    · exact Or.inr ⟨hid ▸ hr.2, r, hr.1, hid, hs⟩
    · subst hr
      exact Or.inl ⟨hid.symm, hs⟩
  · rintro (⟨hm, hs⟩ | ⟨hm, r, hr, hid, hs⟩)
    · exact ⟨⟨id, st, t⟩, Or.inr rfl, hm.symm, hs⟩
    · exact ⟨r, Or.inl ⟨hr, hid ▸ hm⟩, hid, hs⟩

/-! ### Up-pass lemmas -/

/-- Unfolding of the loop when the migration applies successfully. -/
lemma upLoop_cons_ok {fs : String → Option (List Char)} {exec : List Char → Bool}
    {dir_path : String} {now : Int} {m : String} {ms : List String} {l : Ledger}
    (h : (apply_migration fs exec (upPath dir_path m)).2 = Except.ok ()) :
    upLoop fs exec dir_path now (m :: ms) l =
      ⟨m :: (upLoop fs exec dir_path now ms (Ledger.upsertRow l m "success" now)).attempted,
        (apply_migration fs exec (upPath dir_path m)).1 ++
          (upLoop fs exec dir_path now ms (Ledger.upsertRow l m "success" now)).executed,
        (upLoop fs exec dir_path now ms (Ledger.upsertRow l m "success" now)).ledger,
        (upLoop fs exec dir_path now ms (Ledger.upsertRow l m "success" now)).result⟩ := by
  simp only [upLoop, h, Except.isOk, Except.toBool, save_migration, if_true]

/-- Unfolding of the loop when the migration's application fails: the failure
is recorded as a "failed" row and the loop stops, surfacing the error. -/
lemma upLoop_cons_error {fs : String → Option (List Char)} {exec : List Char → Bool}
    {dir_path : String} {now : Int} {m : String} {ms : List String} {l : Ledger}
    {e : MError}
    (h : (apply_migration fs exec (upPath dir_path m)).2 = Except.error e) :
    upLoop fs exec dir_path now (m :: ms) l =
      ⟨[m], (apply_migration fs exec (upPath dir_path m)).1,
        Ledger.upsertRow l m "failed" now, Except.error e⟩ := by
  simp [upLoop, h, Except.isOk, Except.toBool, save_migration]

/-- The migrations a loop run attempts are an initial segment of its input. -/
lemma upLoop_attempted_initial (fs : String → Option (List Char)) (exec : List Char → Bool)
    (dir_path : String) (now : Int) :
    ∀ (ms : List String) (l : Ledger),
      (upLoop fs exec dir_path now ms l).attempted <+: ms := by
  intro ms
  induction ms with
  | nil => intro l; exact List.nil_prefix
  | cons m ms ih =>
    intro l
    cases h : (apply_migration fs exec (upPath dir_path m)).2 with
    | error e =>
      rw [upLoop_cons_error h]
      exact ⟨ms, rfl⟩
    | ok v =>
      cases v
      rw [upLoop_cons_ok h]
      exact List.cons_prefix_cons.mpr ⟨rfl, ih _⟩

/-- A loop run that returns success attempted every input migration. -/
lemma upLoop_attempted_of_ok (fs : String → Option (List Char)) (exec : List Char → Bool)
    (dir_path : String) (now : Int) :
    ∀ (ms : List String) (l : Ledger),
      (upLoop fs exec dir_path now ms l).result = Except.ok () →
        (upLoop fs exec dir_path now ms l).attempted = ms := by
  intro ms
  induction ms with
  | nil => intro l _; rfl
  | cons m ms ih =>
    intro l hok
    cases h : (apply_migration fs exec (upPath dir_path m)).2 with
    | error e =>
      rw [upLoop_cons_error h] at hok
      simp at hok
    | ok v =>
      cases v
      rw [upLoop_cons_ok h] at hok ⊢
      simp only [List.cons.injEq, true_and]
      exact ih _ hok

/-- Ledger state after recording a run of successful migrations. -/
def recordAll (now : Int) (pre : List String) (l : Ledger) : Ledger :=
  pre.foldl (fun acc p => Ledger.upsertRow acc p "success" now) l

/-- Splitting a loop run after an all-successful initial segment. -/
lemma upLoop_append_ok (fs : String → Option (List Char)) (exec : List Char → Bool)
    (dir_path : String) (now : Int) :
    ∀ (pre : List String),
      (∀ p ∈ pre, (apply_migration fs exec (upPath dir_path p)).2 = Except.ok ()) →
      ∀ (rest : List String) (l : Ledger),
        (upLoop fs exec dir_path now (pre ++ rest) l).attempted =
            pre ++ (upLoop fs exec dir_path now rest (recordAll now pre l)).attempted ∧
          (upLoop fs exec dir_path now (pre ++ rest) l).ledger =
            (upLoop fs exec dir_path now rest (recordAll now pre l)).ledger ∧
          (upLoop fs exec dir_path now (pre ++ rest) l).result =
            (upLoop fs exec dir_path now rest (recordAll now pre l)).result := by
  intro pre
  induction pre with
  | nil => intro _ rest l; exact ⟨rfl, rfl, rfl⟩
  | cons p pre ih =>
    intro hpre rest l
    have hp : (apply_migration fs exec (upPath dir_path p)).2 = Except.ok () :=
      hpre p (List.mem_cons_self p pre)
    have hrec : recordAll now (p :: pre) l =
        recordAll now pre (Ledger.upsertRow l p "success" now) := rfl
    rw [List.cons_append, upLoop_cons_ok hp, hrec]
    have := ih (fun q hq => hpre q (List.mem_cons_of_mem p hq)) rest
      (Ledger.upsertRow l p "success" now)
    exact ⟨by rw [List.cons_append, this.1], this.2.1, this.2.2⟩

/-! ### Catalog lemmas -/

/-- The sorted catalog listing is ascending. -/
lemma subdirectories_sorted (entries : List String) :
    (subdirectories entries).Pairwise (· ≤ ·) := by
  have htrans : ∀ a b c : String,
      decide (a ≤ b) = true → decide (b ≤ c) = true → decide (a ≤ c) = true := by
    intro a b c hab hbc
    simp only [decide_eq_true_eq] at *
    exact le_trans hab hbc
  have htotal : ∀ a b : String, (decide (a ≤ b) || decide (b ≤ a)) = true := by
    intro a b
    simpa using le_total a b
  exact (List.sorted_mergeSort htrans htotal entries).imp
    (by simp only [decide_eq_true_eq]; exact fun h => h)

/-- Sorting the catalog keeps its names distinct. -/
lemma subdirectories_nodup {entries : List String} (h : entries.Nodup) :
    (subdirectories entries).Nodup :=
  (List.mergeSort_perm entries _).symm.nodup h

/-- Sorting the catalog keeps exactly its names. -/
lemma mem_subdirectories {entries : List String} {m : String} :
    m ∈ subdirectories entries ↔ m ∈ entries :=
  List.mem_mergeSort

/-- Membership in the pending list. -/
lemma mem_migrations_to_apply {loc db : List String} {m : String} :
    m ∈ migrations_to_apply loc db ↔ m ∈ loc ∧ m ∉ db := by
  simp [migrations_to_apply, List.mem_filter, List.contains, List.elem_iff]

/-- The pending list is strictly ascending when the catalog has no duplicate
names (directory names are distinct on a filesystem). -/
lemma migrations_to_apply_sorted_lt {entries : List String} (hnd : entries.Nodup)
    (db : List String) :
    (migrations_to_apply (subdirectories entries) db).Pairwise (· < ·) := by
  have hle : (migrations_to_apply (subdirectories entries) db).Pairwise (· ≤ ·) :=
    (subdirectories_sorted entries).filter _
  have hne : (migrations_to_apply (subdirectories entries) db).Pairwise (· ≠ ·) :=
    (subdirectories_nodup hnd).filter _
  exact (hle.and hne).imp fun h => lt_of_le_of_ne h.1 h.2

/-- The empty table lists no applied migration. -/
lemma ledgerList_nil : ledgerList ([] : Ledger) = [] := by
  simp [ledgerList, Ledger.rowsById, List.mergeSort_nil, successIds]

/-- A row of an upserted table is an old row or the new row. -/
lemma mem_upsertRow {l : Ledger} {id st : String} {t : Int} {rec : LedgerRecord} :
    rec ∈ Ledger.upsertRow l id st t → rec ∈ l ∨ rec = ⟨id, st, t⟩ := by
  intro h
  rcases List.mem_append.mp h with h' | h'
  · exact Or.inl (List.mem_filter.mp h').1
  · exact Or.inr (List.mem_singleton.mp h')

/-- Every row of the ledger after a loop run is an original row or carries the
pass's shared timestamp. -/
lemma upLoop_ledger_run_at (fs : String → Option (List Char)) (exec : List Char → Bool)
    (dir_path : String) (now : Int) :
    ∀ (ms : List String) (l : Ledger) (rec : LedgerRecord),
      rec ∈ (upLoop fs exec dir_path now ms l).ledger → rec ∈ l ∨ rec.run_at = now := by
  intro ms
  induction ms with
  | nil => intro l rec h; exact Or.inl h
  | cons m ms ih =>
    intro l rec h
    cases hm : (apply_migration fs exec (upPath dir_path m)).2 with
    | error e =>
      rw [upLoop_cons_error hm] at h
      rcases mem_upsertRow h with h' | h'
      · exact Or.inl h'
      · exact Or.inr (by rw [h'])
    | ok v =>
      cases v
      rw [upLoop_cons_ok hm] at h
      rcases ih _ rec h with h' | h'
      · rcases mem_upsertRow h' with h'' | h''
        · exact Or.inl h''
        · exact Or.inr (by rw [h''])
      · exact Or.inr h'

/-- A loop run never touches rows whose id it does not process. -/
lemma upLoop_preserves_other (fs : String → Option (List Char)) (exec : List Char → Bool)
    (dir_path : String) (now : Int) :
    ∀ (ms : List String) (l : Ledger) (rec : LedgerRecord),
      rec ∈ l → rec.id ∉ ms → rec ∈ (upLoop fs exec dir_path now ms l).ledger := by
  intro ms
  induction ms with
  | nil => intro l rec h _; exact h
  | cons m ms ih =>
    intro l rec h hni
    have hne : rec.id ≠ m := fun he => hni (he ▸ List.mem_cons_self m ms)
    have hmem : rec ∈ Ledger.upsertRow l m "success" now ∧
        rec ∈ Ledger.upsertRow l m "failed" now := by
      constructor <;>
        exact List.mem_append.mpr (Or.inl (List.mem_filter.mpr
          ⟨h, by simp [beq_eq_false_iff_ne, hne]⟩))
    cases hm : (apply_migration fs exec (upPath dir_path m)).2 with
    | error e =>
      rw [upLoop_cons_error hm]
      exact hmem.2
    | ok v =>
      cases v
      rw [upLoop_cons_ok hm]
      exact ih _ rec hmem.1 (fun hc => hni (List.mem_cons_of_mem m hc))

/-- After a successful loop run over distinct migrations, every processed
migration has a "success" row carrying the shared timestamp. -/
lemma upLoop_ok_success_record (fs : String → Option (List Char)) (exec : List Char → Bool)
    (dir_path : String) (now : Int) :
    ∀ (ms : List String), ms.Nodup → ∀ (l : Ledger),
      (upLoop fs exec dir_path now ms l).result = Except.ok () →
        ∀ m ∈ ms, (⟨m, "success", now⟩ : LedgerRecord) ∈
          (upLoop fs exec dir_path now ms l).ledger := by
  intro ms
  induction ms with
  | nil => intro _ l _ m hm; cases hm
  | cons m' ms ih =>
    intro hnd l hok m hm
    cases hm' : (apply_migration fs exec (upPath dir_path m')).2 with
    | error e =>
      rw [upLoop_cons_error hm'] at hok
      simp at hok
    | ok v =>
      cases v
      rw [upLoop_cons_ok hm'] at hok ⊢
      rcases List.mem_cons.mp hm with rfl | hm
      · have hnew : (⟨m, "success", now⟩ : LedgerRecord) ∈
            Ledger.upsertRow l m "success" now :=
          List.mem_append.mpr (Or.inr (List.mem_singleton.mpr rfl))
        exact upLoop_preserves_other fs exec dir_path now ms _ _ hnew
          (List.nodup_cons.mp hnd).1
      · exact ih (List.nodup_cons.mp hnd).2 _ hok m hm

/-- An id listed after a loop run was listed before the run or belongs to a
migration whose statements all executed successfully during the run. -/
lemma upLoop_applied_source (fs : String → Option (List Char)) (exec : List Char → Bool)
    (dir_path : String) (now : Int) :
    ∀ (ms : List String) (l : Ledger) (m : String),
      m ∈ ledgerList (upLoop fs exec dir_path now ms l).ledger →
        m ∈ ledgerList l ∨
          (m ∈ (upLoop fs exec dir_path now ms l).attempted ∧
            (apply_migration fs exec (upPath dir_path m)).2 = Except.ok ()) := by
  intro ms
  induction ms with
  | nil => intro l m h; exact Or.inl h
  | cons m' ms ih =>
    intro l m h
    cases hm' : (apply_migration fs exec (upPath dir_path m')).2 with
    | error e =>
      rw [upLoop_cons_error hm'] at h ⊢
      rcases mem_ledgerList_upsertRow.mp h with ⟨_, hst⟩ | ⟨_, hmem⟩
      · exact absurd hst (by decide)
      · exact Or.inl hmem
    | ok v =>
      cases v
      rw [upLoop_cons_ok hm'] at h ⊢
      rcases ih _ m h with h' | ⟨hatt, hok⟩
      · rcases mem_ledgerList_upsertRow.mp h' with ⟨rfl, _⟩ | ⟨_, hmem⟩
        · exact Or.inr ⟨List.mem_cons_self _ _, hm'⟩
        · exact Or.inl hmem
      · exact Or.inr ⟨List.mem_cons_of_mem _ hatt, hok⟩

/-- A list whose members all equal one of its members, without duplicates, is
that singleton. -/
lemma eq_singleton_of_nodup {α : Type _} {s : List α} {x : α}
    (h1 : x ∈ s) (h2 : ∀ y ∈ s, y = x) (h3 : s.Nodup) : s = [x] := by
  cases s with
  | nil => cases h1
  | cons y t =>
    have hy : y = x := h2 y (List.mem_cons_self y t)
    subst hy
    have ht : t = [] := by
      cases t with
      | nil => rfl
      | cons z t' =>
        have hz : z = y := h2 z (List.mem_cons_of_mem y (List.mem_cons_self z t'))
        exact absurd (hz ▸ List.mem_cons_self z t')
          (List.nodup_cons.mp h3).1
    rw [ht]

/-! ### Claim theorems -/

/-- C1: for every catalog of local migration units (directory names are
distinct on a filesystem) and every ledger state, the up pass attempts only
migrations whose id is a local subdirectory name and is not in the
successfully-applied listing, attempts them in strictly ascending
lexicographic id order, and attempts exactly the whole pending list whenever
the pass runs to success (an earlier failure aborts the pass, SO the
attempted migrations always form an initial segment of the pending list). -/
theorem up_attempts_exactly_pending (fs : String → Option (List Char))
    (exec : List Char → Bool) (dir_path : String) (entries : List String)
    (now : Int) (l : Ledger) (hnd : entries.Nodup) :
    (∀ m ∈ (up fs exec dir_path entries now l).attempted,
        m ∈ entries ∧ m ∉ ledgerList l) ∧
      (up fs exec dir_path entries now l).attempted.Pairwise (· < ·) ∧
      (up fs exec dir_path entries now l).attempted <+:
        migrations_to_apply (subdirectories entries) (ledgerList l) ∧
      ((up fs exec dir_path entries now l).result = Except.ok () →
        (up fs exec dir_path entries now l).attempted =
          migrations_to_apply (subdirectories entries) (ledgerList l)) := by
  have hup : up fs exec dir_path entries now l =
      upLoop fs exec dir_path now
        (migrations_to_apply (subdirectories entries) (ledgerList l)) l := rfl
  rw [hup]
  refine ⟨?_, ?_, ?_, ?_⟩
  · intro m hm
    have hmem := (upLoop_attempted_initial fs exec dir_path now _ l).sublist.subset hm
    have h' := mem_migrations_to_apply.mp hmem
    exact ⟨mem_subdirectories.mp h'.1, h'.2⟩
  · exact List.Pairwise.sublist
      (upLoop_attempted_initial fs exec dir_path now _ l).sublist
      (migrations_to_apply_sorted_lt hnd _)
  · exact upLoop_attempted_initial fs exec dir_path now _ l
  · exact upLoop_attempted_of_ok fs exec dir_path now _ l

/-- C1 witness: a concrete catalog and empty ledger. -/
theorem up_attempts_exactly_pending_witness :
    (∀ m ∈ (up (fun _ => some ['x']) (fun _ => true) "d" ["b", "a"] 0 []).attempted,
        m ∈ ["b", "a"] ∧ m ∉ ledgerList ([] : Ledger)) ∧
      (up (fun _ => some ['x']) (fun _ => true) "d" ["b", "a"] 0 []).attempted.Pairwise
        (· < ·) ∧
      (up (fun _ => some ['x']) (fun _ => true) "d" ["b", "a"] 0 []).attempted <+:
        migrations_to_apply (subdirectories ["b", "a"]) (ledgerList ([] : Ledger)) ∧
      ((up (fun _ => some ['x']) (fun _ => true) "d" ["b", "a"] 0 []).result =
          Except.ok () →
        (up (fun _ => some ['x']) (fun _ => true) "d" ["b", "a"] 0 []).attempted =
          migrations_to_apply (subdirectories ["b", "a"]) (ledgerList ([] : Ledger))) :=
  up_attempts_exactly_pending (fun _ => some ['x']) (fun _ => true) "d" ["b", "a"] 0 []
    (by decide)

/-- C5: when the applied-ids listing already contains every local catalog id,
the up pass attempts nothing, issues no statement, leaves the ledger as it
was, and returns success. -/
theorem up_noop_when_all_applied (fs : String → Option (List Char))
    (exec : List Char → Bool) (dir_path : String) (entries : List String)
    (now : Int) (l : Ledger) (h : ∀ m ∈ entries, m ∈ ledgerList l) :
    up fs exec dir_path entries now l =
      ⟨[], [], l, Except.ok ()⟩ := by
  have hup : up fs exec dir_path entries now l =
      upLoop fs exec dir_path now
        (migrations_to_apply (subdirectories entries) (ledgerList l)) l := rfl
  have hpend : migrations_to_apply (subdirectories entries) (ledgerList l) = [] := by
    apply List.filter_eq_nil_iff.mpr
    intro a ha
    have hmem := h a (mem_subdirectories.mp ha)
    simp [List.contains, List.elem_iff, hmem]
  rw [hup, hpend]
  rfl

/-- C5 witness: a one-entry catalog whose migration is already applied. -/
theorem up_noop_when_all_applied_witness :
    up (fun _ => some ['x']) (fun _ => true) "d" ["a"] 0 [⟨"a", "success", 3⟩] =
      ⟨[], [], [⟨"a", "success", 3⟩], Except.ok ()⟩ :=
  up_noop_when_all_applied (fun _ => some ['x']) (fun _ => true) "d" ["a"] 0
    [⟨"a", "success", 3⟩]
    (by
      intro m hm
      simp only [List.mem_singleton] at hm
      subst hm
      simp only [ledgerList, Ledger.rowsById]
      rw [List.mergeSort_of_sorted (by decide)]
      decide)

/-- Bridge for concrete inputs: character-level order of names gives the
Bool-valued order used by the catalog sort. -/
lemma pairwise_le_of_toList {l : List String}
    (h : l.Pairwise (fun a b => a.toList < b.toList)) :
    l.Pairwise (fun a b => decide (a ≤ b) = true) :=
  h.imp fun hab => by
    simp only [decide_eq_true_eq]
    exact le_of_lt (String.lt_iff_toList_lt.mpr hab)

/-- Bridge for concrete ledgers: character-level order of row ids gives the
Bool-valued order used by the id sort of the SELECT. -/
lemma pairwise_id_le_of_toList {l : Ledger}
    (h : l.Pairwise (fun a b => a.id.toList < b.id.toList)) :
    l.Pairwise (fun a b => decide (a.id ≤ b.id) = true) :=
  h.imp fun hab => by
    simp only [decide_eq_true_eq]
    exact le_of_lt (String.lt_iff_toList_lt.mpr hab)

/-- C6: every ledger record an up pass writes carries the single timestamp
captured at the start of the pass, and after a successful pass every attempted
migration has a "success" record with that one shared timestamp — so after a
successful pass over three migrations all three records carry an identical
applied_at value. -/
theorem up_single_timestamp (fs : String → Option (List Char))
    (exec : List Char → Bool) (dir_path : String) (entries : List String)
    (now : Int) (l : Ledger) (hnd : entries.Nodup) :
    (∀ rec ∈ (up fs exec dir_path entries now l).ledger,
        rec ∈ l ∨ rec.run_at = now) ∧
      ((up fs exec dir_path entries now l).result = Except.ok () →
        ∀ m ∈ (up fs exec dir_path entries now l).attempted,
          (⟨m, "success", now⟩ : LedgerRecord) ∈
            (up fs exec dir_path entries now l).ledger) := by
  have hup : up fs exec dir_path entries now l =
      upLoop fs exec dir_path now
        (migrations_to_apply (subdirectories entries) (ledgerList l)) l := rfl
  rw [hup]
  constructor
  · exact fun rec h => upLoop_ledger_run_at fs exec dir_path now _ l rec h
  · intro hok m hm
    have hnd' : (migrations_to_apply (subdirectories entries) (ledgerList l)).Nodup :=
      (subdirectories_nodup hnd).filter _
    rw [upLoop_attempted_of_ok fs exec dir_path now _ l hok] at hm
    exact upLoop_ok_success_record fs exec dir_path now _ hnd' l hok m hm

/-- C6 witness: a concrete two-migration pass. -/
theorem up_single_timestamp_witness :
    (∀ rec ∈ (up (fun _ => some ['x']) (fun _ => true) "d" ["a", "b"] 7 []).ledger,
        rec ∈ ([] : Ledger) ∨ rec.run_at = 7) ∧
      ((up (fun _ => some ['x']) (fun _ => true) "d" ["a", "b"] 7 []).result =
          Except.ok () →
        ∀ m ∈ (up (fun _ => some ['x']) (fun _ => true) "d" ["a", "b"] 7 []).attempted,
          (⟨m, "success", 7⟩ : LedgerRecord) ∈
            (up (fun _ => some ['x']) (fun _ => true) "d" ["a", "b"] 7 []).ledger) :=
  up_single_timestamp (fun _ => some ['x']) (fun _ => true) "d" ["a", "b"] 7 []
    (by decide)

/-- C8: after any up pass, an id appears in the applied-ids listing only
through a record whose status is "success" (the listing filters to that
status), and only if it was listed before the pass or its statements all
executed successfully on its attempt during the pass. -/
theorem applied_ids_require_success (fs : String → Option (List Char))
    (exec : List Char → Bool) (dir_path : String) (entries : List String)
    (now : Int) (l : Ledger) (m : String)
    (hm : m ∈ ledgerList (up fs exec dir_path entries now l).ledger) :
    (∃ rec, rec ∈ (up fs exec dir_path entries now l).ledger ∧
        rec.id = m ∧ rec.status = "success") ∧
      (m ∈ ledgerList l ∨
        (m ∈ (up fs exec dir_path entries now l).attempted ∧
          (apply_migration fs exec (upPath dir_path m)).2 = Except.ok ())) := by
  have hup : up fs exec dir_path entries now l =
      upLoop fs exec dir_path now
        (migrations_to_apply (subdirectories entries) (ledgerList l)) l := rfl
  rw [hup] at hm ⊢
  exact ⟨mem_ledgerList.mp hm, upLoop_applied_source fs exec dir_path now _ l m hm⟩

/-- C8 witness: a concrete pass that applies one migration. -/
theorem applied_ids_require_success_witness :
    (∃ rec, rec ∈ (up (fun _ => some ['x']) (fun _ => true) "d" ["a"] 0 []).ledger ∧
        rec.id = "a" ∧ rec.status = "success") ∧
      ("a" ∈ ledgerList ([] : Ledger) ∨
        ("a" ∈ (up (fun _ => some ['x']) (fun _ => true) "d" ["a"] 0 []).attempted ∧
          (apply_migration (fun _ => some ['x']) (fun _ => true)
            (upPath "d" "a")).2 = Except.ok ())) :=
  applied_ids_require_success (fun _ => some ['x']) (fun _ => true) "d" ["a"] 0 [] "a"
    (by
      have hled : (up (fun _ => some ['x']) (fun _ => true) "d" ["a"] 0 []).ledger =
          [⟨"a", "success", 0⟩] := by
        have hup : up (fun _ => some ['x']) (fun _ => true) "d" ["a"] 0 [] =
            upLoop (fun _ => some ['x']) (fun _ => true) "d" 0
              (migrations_to_apply (subdirectories ["a"]) (ledgerList [])) [] := rfl
        rw [hup, ledgerList_nil,
          show subdirectories ["a"] = ["a"] from List.mergeSort_of_sorted (by decide)]
        rfl
      exact mem_ledgerList.mpr
        ⟨⟨"a", "success", 0⟩, by rw [hled]; exact List.mem_singleton.mpr rfl, rfl, rfl⟩)

/-- C2: over pending migrations [a, b, c] (ascending, starting from an empty
ledger) where a's script applies and b's script fails on a statement, the
pass attempts a then b only, records a as "success" and b as "failed" (the
failed record is in the ledger while the error is surfaced as the pass
result), leaves no record for c, and the applied-ids listing afterwards is
exactly [a]. -/
theorem up_failure_midway (fs : String → Option (List Char))
    (exec : List Char → Bool) (dir_path : String) (entries : List String)
    (now : Int) (a b c : String)
    (hnd : entries.Nodup)
    (hcat : subdirectories entries = [a, b, c])
    (ha : (apply_migration fs exec (upPath dir_path a)).2 = Except.ok ())
    (hb : (apply_migration fs exec (upPath dir_path b)).2 =
      Except.error MError.statementError) :
    (up fs exec dir_path entries now []).attempted = [a, b] ∧
      (up fs exec dir_path entries now []).ledger =
        [⟨a, "success", now⟩, ⟨b, "failed", now⟩] ∧
      (∀ rec ∈ (up fs exec dir_path entries now []).ledger, rec.id ≠ c) ∧
      (up fs exec dir_path entries now []).result =
        Except.error MError.statementError ∧
      ledgerList (up fs exec dir_path entries now []).ledger = [a] := by
  have hnd3 : ([a, b, c] : List String).Nodup := hcat ▸ subdirectories_nodup hnd
  have hab : a ≠ b := by
    intro h; subst h; simp at hnd3
  have hac : a ≠ c := by
    intro h; subst h; simp at hnd3
  have hbc : b ≠ c := by
    intro h; subst h; simp at hnd3
  have hup : up fs exec dir_path entries now [] =
      upLoop fs exec dir_path now
        (migrations_to_apply (subdirectories entries) (ledgerList [])) [] := rfl
  have hpend : migrations_to_apply (subdirectories entries) (ledgerList ([] : Ledger)) =
      [a, b, c] := by
    rw [ledgerList_nil, hcat]
    simp [migrations_to_apply, List.contains]
  rw [hup, hpend, upLoop_cons_ok ha, upLoop_cons_error hb]
  have hl2 : Ledger.upsertRow (Ledger.upsertRow [] a "success" now) b "failed" now =
      [⟨a, "success", now⟩, ⟨b, "failed", now⟩] := by
    have h1 : ((⟨a, "success", now⟩ : LedgerRecord).id == b) = false :=
      beq_eq_false_iff_ne.mpr hab
    simp [Ledger.upsertRow, List.filter_cons, h1]
  refine ⟨rfl, hl2, ?_, rfl, ?_⟩
  · intro rec hrec
    rw [hl2] at hrec
    rcases List.mem_cons.mp hrec with rfl | hrec
    · exact hac
    · rcases List.mem_cons.mp hrec with rfl | hrec
      · exact hbc
      · cases hrec
  · rw [hl2]
    apply eq_singleton_of_nodup
    · exact mem_ledgerList.mpr
        ⟨⟨a, "success", now⟩, List.mem_cons_self _ _, rfl, rfl⟩
    · intro y hy
      obtain ⟨rec, hrec, hid, hst⟩ := mem_ledgerList.mp hy
      rcases List.mem_cons.mp hrec with rfl | hrec
      · exact hid.symm
      · rcases List.mem_cons.mp hrec with rfl | hrec
        · have hst' : ("failed" : String) = "success" := hst
          exact absurd hst' (by decide)
        · cases hrec
    · exact ledgerList_nodup (by simp [hab])

/-- C2 witness: a concrete three-migration catalog whose second script fails. -/
theorem up_failure_midway_witness :
    (up (fun p => some (if p = "d/b/up.cql" then ['y'] else ['x']))
        (fun s => !(s == ['y'])) "d" ["a", "b", "c"] 7 []).attempted = ["a", "b"] ∧
      (up (fun p => some (if p = "d/b/up.cql" then ['y'] else ['x']))
          (fun s => !(s == ['y'])) "d" ["a", "b", "c"] 7 []).ledger =
        [⟨"a", "success", 7⟩, ⟨"b", "failed", 7⟩] ∧
      (∀ rec ∈ (up (fun p => some (if p = "d/b/up.cql" then ['y'] else ['x']))
          (fun s => !(s == ['y'])) "d" ["a", "b", "c"] 7 []).ledger, rec.id ≠ "c") ∧
      (up (fun p => some (if p = "d/b/up.cql" then ['y'] else ['x']))
          (fun s => !(s == ['y'])) "d" ["a", "b", "c"] 7 []).result =
        Except.error MError.statementError ∧
      ledgerList (up (fun p => some (if p = "d/b/up.cql" then ['y'] else ['x']))
          (fun s => !(s == ['y'])) "d" ["a", "b", "c"] 7 []).ledger = ["a"] :=
  up_failure_midway (fun p => some (if p = "d/b/up.cql" then ['y'] else ['x']))
    (fun s => !(s == ['y'])) "d" ["a", "b", "c"] 7 "a" "b" "c"
    (by decide)
    (List.mergeSort_of_sorted (pairwise_le_of_toList (by decide)))
    rfl
    rfl

/-- C4 counterexample: with a one-migration catalog whose up-script file is
missing, the pass DOES write a ledger record for that migration (status
"failed") — the loop records `resp.is_ok()` for every error kind, the io
error included — refuting the claim that no ledger record is written. -/
theorem up_io_error_counterexample :
    (up (fun _ => none) (fun _ => true) "d" ["m1"] 0 []).result =
        Except.error MError.ioError ∧
      (up (fun _ => none) (fun _ => true) "d" ["m1"] 0 []).ledger =
        [⟨"m1", "failed", 0⟩] := by
  have hup : up (fun _ => none) (fun _ => true) "d" ["m1"] 0 [] =
      upLoop (fun _ => none) (fun _ => true) "d" 0
        (migrations_to_apply (subdirectories ["m1"]) (ledgerList [])) [] := rfl
  rw [hup, ledgerList_nil,
    show subdirectories ["m1"] = ["m1"] from List.mergeSort_of_sorted (by decide)]
  exact ⟨rfl, rfl⟩

/-- C4 (amended): for every pending migration whose up-script file is missing
or unreadable (all pending migrations before it applying successfully), the
up pass fails with the io error, writes a ledger record with status "failed"
and the pass timestamp for that migration, and aborts without attempting any
later pending migration. -/
theorem up_io_error_records_failed (fs : String → Option (List Char))
    (exec : List Char → Bool) (dir_path : String) (entries : List String)
    (now : Int) (l : Ledger) (a : String) (pre post : List String)
    (hnd : entries.Nodup)
    (hpend : migrations_to_apply (subdirectories entries) (ledgerList l) =
      pre ++ a :: post)
    (hpre : ∀ p ∈ pre, (apply_migration fs exec (upPath dir_path p)).2 = Except.ok ())
    (hio : fs (upPath dir_path a) = none) :
    (up fs exec dir_path entries now l).result = Except.error MError.ioError ∧
      (⟨a, "failed", now⟩ : LedgerRecord) ∈ (up fs exec dir_path entries now l).ledger ∧
      (up fs exec dir_path entries now l).attempted = pre ++ [a] ∧
      ∀ q ∈ post, q ∉ (up fs exec dir_path entries now l).attempted := by
  have happly : apply_migration fs exec (upPath dir_path a) =
      ([], Except.error MError.ioError) := by
    simp [apply_migration, file_contents, hio]
  have hup : up fs exec dir_path entries now l =
      upLoop fs exec dir_path now
        (migrations_to_apply (subdirectories entries) (ledgerList l)) l := rfl
  rw [hup, hpend]
  obtain ⟨hatt, hled, hres⟩ :=
    upLoop_append_ok fs exec dir_path now pre hpre (a :: post) l
  have herr : (apply_migration fs exec (upPath dir_path a)).2 =
      Except.error MError.ioError := by rw [happly]
  rw [upLoop_cons_error herr] at hatt hled hres
  have hattempted : (upLoop fs exec dir_path now (pre ++ a :: post) l).attempted =
      pre ++ [a] := hatt.trans rfl
  refine ⟨hres.trans rfl, ?_, hattempted, ?_⟩
  · rw [hled]
    exact List.mem_append.mpr (Or.inr (List.mem_singleton.mpr rfl))
  · intro q hq
    rw [hattempted]
    have hndp : (pre ++ a :: post).Nodup :=
      hpend ▸ ((subdirectories_nodup hnd).filter _)
    obtain ⟨hpre', hpost', hdisj⟩ := List.nodup_append.mp hndp
    intro hmem
    rcases List.mem_append.mp hmem with h' | h'
    · exact hdisj h' (List.mem_cons_of_mem a hq)
    · have : q = a := List.mem_singleton.mp h'
      subst this
      exact (List.nodup_cons.mp hpost').1 hq

/-- C4 (amended) witness: a three-migration catalog whose second up script is
missing. -/
theorem up_io_error_records_failed_witness :
    (up (fun p => if p = "d/b/up.cql" then none else some ['x']) (fun _ => true)
        "d" ["a", "b", "c"] 7 []).result = Except.error MError.ioError ∧
      (⟨"b", "failed", 7⟩ : LedgerRecord) ∈
        (up (fun p => if p = "d/b/up.cql" then none else some ['x']) (fun _ => true)
          "d" ["a", "b", "c"] 7 []).ledger ∧
      (up (fun p => if p = "d/b/up.cql" then none else some ['x']) (fun _ => true)
          "d" ["a", "b", "c"] 7 []).attempted = ["a"] ++ ["b"] ∧
      ∀ q ∈ ["c"], q ∉ (up (fun p => if p = "d/b/up.cql" then none else some ['x'])
        (fun _ => true) "d" ["a", "b", "c"] 7 []).attempted :=
  up_io_error_records_failed (fun p => if p = "d/b/up.cql" then none else some ['x'])
    (fun _ => true) "d" ["a", "b", "c"] 7 [] "b" ["a"] ["c"]
    (by decide)
    (by
      rw [ledgerList_nil,
        show subdirectories ["a", "b", "c"] = ["a", "b", "c"] from
          List.mergeSort_of_sorted (pairwise_le_of_toList (by decide))]
      rfl)
    (by
      intro p hp
      have hp' : p = "a" := List.mem_singleton.mp hp
      subst hp'
      rfl)
    rfl

/-- C7 counterexample: a script consisting of a single space — whitespace
only — is NOT discarded by the splitter (only exactly-empty fragments are),
so executing it issues one statement, refuting "zero executed statements". -/
theorem whitespace_script_counterexample :
    ¬ ((apply_migration (fun _ => some [' ']) (fun _ => true) "p").1 = [] ∧
      (apply_migration (fun _ => some [' ']) (fun _ => true) "p").2 =
        Except.ok ()) :=
  fun h =>
    absurd h.1 (by decide)

/-- C7 (amended): executing a script whose text is empty yields zero executed
statements and an overall success result (a non-empty whitespace-only script,
by contrast, is executed as a statement — see the counterexample). -/
theorem empty_script_noop (fs : String → Option (List Char))
    (exec : List Char → Bool) (path : String) (h : fs path = some []) :
    apply_migration fs exec path = ([], Except.ok ()) := by
  simp only [apply_migration, file_contents, h]
  rfl

/-- C7 (amended) witness. -/
theorem empty_script_noop_witness :
    apply_migration (fun _ => some []) (fun _ => true) "p" = ([], Except.ok ()) :=
  empty_script_noop (fun _ => some []) (fun _ => true) "p" rfl

/-- Every character of a fragment produced by the split came from the split
input. -/
lemma splitSemi_chars :
    ∀ (s : List Char), ∀ f ∈ splitSemi s, ∀ ch ∈ f, ch ∈ s := by
  intro s
  induction s with
  | nil =>
    intro f hf ch hch
    simp only [splitSemi, List.mem_singleton] at hf
    subst hf
    cases hch
  | cons c cs ih =>
    intro f hf ch hch
    by_cases hc : c = ';'
    · rw [splitSemi, if_pos hc] at hf
      rcases List.mem_cons.mp hf with rfl | hf'
      · cases hch
      · exact List.mem_cons_of_mem c (ih f hf' ch hch)
    · rw [splitSemi, if_neg hc] at hf
      cases hsp : splitSemi cs with
      | nil =>
        rw [hsp] at hf
        simp only [List.mem_singleton] at hf
        subst hf
        rcases List.mem_cons.mp hch with rfl | h'
        · exact List.mem_cons_self _ _
        · cases h'
      | cons g gs =>
        rw [hsp] at hf
        rcases List.mem_cons.mp hf with rfl | hf'
        · rcases List.mem_cons.mp hch with rfl | hch'
          · exact List.mem_cons_self _ _
          · exact List.mem_cons_of_mem c
              (ih g (hsp ▸ List.mem_cons_self g gs) ch hch')
        · exact List.mem_cons_of_mem c
            (ih f (hsp ▸ List.mem_cons_of_mem g hf') ch hch)

/-- Every statement the sequential loop issues is one of its input
statements. -/
lemma runQueries_issued_subset (exec : List Char → Bool) :
    ∀ (qs : List (List Char)) (q : List Char),
      q ∈ (runQueries exec qs).1 → q ∈ qs := by
  intro qs
  induction qs with
  | nil => intro q hq; cases hq
  | cons q' qs ih =>
    intro q hq
    rw [runQueries] at hq
    by_cases h : exec q' = true
    · rw [if_pos h] at hq
      rcases List.mem_cons.mp hq with rfl | hq'
      · exact List.mem_cons_self _ _
      · exact List.mem_cons_of_mem q' (ih q hq')
    · rw [if_neg h] at hq
      have : q = q' := List.mem_singleton.mp hq
      exact this ▸ List.mem_cons_self _ _

/-- C10: the script's newlines are all replaced by single spaces before the
split on the semicolon separator, so no statement issued to the target store
contains a newline — whatever the script's content, string literals and
comments included. -/
theorem issued_statements_newline_free (fs : String → Option (List Char))
    (exec : List Char → Bool) (path : String) (q : List Char)
    (hq : q ∈ (apply_migration fs exec path).1) : '\n' ∉ q := by
  intro hch
  cases hfs : fs path with
  | none =>
    rw [show apply_migration fs exec path = ([], Except.error MError.ioError) by
      simp [apply_migration, file_contents, hfs]] at hq
    cases hq
  | some s =>
    rw [show apply_migration fs exec path = runQueries exec (splitStatements s) by
      simp [apply_migration, file_contents, hfs]] at hq
    have h1 : q ∈ splitStatements s := runQueries_issued_subset exec _ q hq
    have h2 : q ∈ splitSemi (replaceNewlines s) := (List.mem_filter.mp h1).1
    have h3 : '\n' ∈ replaceNewlines s := splitSemi_chars _ q h2 '\n' hch
    obtain ⟨c, _, heq⟩ := List.mem_map.mp h3
    by_cases hcn : c = '\n'
    · rw [if_pos hcn] at heq
      exact absurd heq (by decide)
    · rw [if_neg hcn] at heq
      exact hcn heq

/-- C10 witness: a concrete script with an embedded newline. -/
theorem issued_statements_newline_free_witness :
    '\n' ∉ (['a', ' ', 'b'] : List Char) :=
  issued_statements_newline_free (fun _ => some ['a', '\n', 'b']) (fun _ => true)
    "p" ['a', ' ', 'b'] (by decide)

/-- C9: the ledger-client functions of the db module behave identically to the
inline functions of main — for every table state, migration id, success flag
and timestamp they issue the byte-identical query with the same bound values
and produce the same table state and the same listing. -/
theorem db_module_matches_main :
    (∀ (l : Ledger) (migration : String) (success : Bool) (now : Int),
        save_migration l migration success now = DB.upsert l migration success now) ∧
      ∀ l : Ledger, db_migrations l = DB.list l :=
  ⟨fun _ _ _ _ => rfl, fun _ => rfl⟩

/-- C3: when the applied-ids listing is [a, b, c] (the ledger holding one row
per id, as its primary key guarantees) and c's down script executes
successfully, the revert operation in Latest mode runs only c's down script,
deletes c's ledger record, and the applied-ids listing afterwards equals
[a, b].  The revert engine itself is modelled from the spec (see `revert`);
the record deletion is db.rs `delete`. -/
theorem revert_latest_pops_max (fs : String → Option (List Char))
    (exec : List Char → Bool) (dir_path : String) (l : Ledger) (a b c : String)
    (hWF : (l.map (fun r => r.id)).Nodup)
    (hlist : ledgerList l = [a, b, c])
    (hok : (apply_migration fs exec (downPath dir_path c)).2 = Except.ok ()) :
    (revert fs exec dir_path RevertMode.latest l).attempted = [c] ∧
      (revert fs exec dir_path RevertMode.latest l).result = Except.ok () ∧
      ledgerList (revert fs exec dir_path RevertMode.latest l).ledger = [a, b] := by
  have hnd3 : ([a, b, c] : List String).Nodup := hlist ▸ ledgerList_nodup hWF
  have hac : a ≠ c := by intro h; subst h; simp at hnd3
  have hbc : b ≠ c := by intro h; subst h; simp at hnd3
  have hsel : revert fs exec dir_path RevertMode.latest l =
      revertLoop fs exec dir_path [c] l := by
    simp only [revert, hlist]
    rfl
  have hloop : revertLoop fs exec dir_path [c] l =
      ⟨[c], Ledger.deleteRow l c, Except.ok ()⟩ := by
    simp only [revertLoop, hok]
  rw [hsel, hloop]
  refine ⟨rfl, rfl, ?_⟩
  rw [ledgerList_deleteRow, hlist]
  have h1 : (a == c) = false := beq_eq_false_iff_ne.mpr hac
  have h2 : (b == c) = false := beq_eq_false_iff_ne.mpr hbc
  simp [List.filter_cons, h1, h2]

/-- C3 witness: a concrete three-row ledger. -/
theorem revert_latest_pops_max_witness :
    (revert (fun _ => some ['x']) (fun _ => true) "d" RevertMode.latest
        [⟨"a", "success", 1⟩, ⟨"b", "success", 1⟩, ⟨"c", "success", 1⟩]).attempted =
        ["c"] ∧
      (revert (fun _ => some ['x']) (fun _ => true) "d" RevertMode.latest
        [⟨"a", "success", 1⟩, ⟨"b", "success", 1⟩, ⟨"c", "success", 1⟩]).result =
        Except.ok () ∧
      ledgerList (revert (fun _ => some ['x']) (fun _ => true) "d" RevertMode.latest
        [⟨"a", "success", 1⟩, ⟨"b", "success", 1⟩, ⟨"c", "success", 1⟩]).ledger =
        ["a", "b"] :=
  revert_latest_pops_max (fun _ => some ['x']) (fun _ => true) "d"
    [⟨"a", "success", 1⟩, ⟨"b", "success", 1⟩, ⟨"c", "success", 1⟩] "a" "b" "c"
    (by decide)
    (by
      simp only [ledgerList, Ledger.rowsById]
      rw [List.mergeSort_of_sorted (pairwise_id_le_of_toList (by decide))]
      rfl)
    rfl

end ScyllaMigrate
